import Mathlib

/-!
Verification of the core of alpn/blazer against its specification.

Shallow embedding of two source files:

* `base/base.go` — the B2 low-level client: the error classifier
  (`Action`, `Backoff`), the large-file upload session (`LargeFile`,
  `FileChunk.UploadPart`, `LargeFile.FinishLargeFile`).
* the (commented-out) chunked download `Reader` — its worker loop
  (`Reader.thread`), sequential consumer (`Reader.Read`, `Reader.curChunk`),
  lazy one-time setup (`Reader.initFunc`) and error latch (`Reader.setErr`).

Go machine integers (`int`, `int64`) are modelled as `Int` where sign
matters and as `Nat` for quantities that are non-negative by construction
(sizes and offsets derived from lengths).  Fallible code returns
`Option`/`Except`; a Go runtime panic is an `Except.error` distinct from
any returned error value.
-/

namespace Blazer

/-! ## Error classifier (base.go lines 51-112, 144-154) -/

/-- ErrAction, the recommended course of action for an error
    (base.go lines 93-112). -/
inductive ErrAction where
  | ReAuthenticate
  | AttemptNewUpload
  | Retry
  | Punt
deriving DecidableEq, Repr

/-- The b2err struct (base.go lines 51-56).  `retry` is the parsed
    Retry-After header in seconds and `code` the HTTP status, both Go
    `int`s, so modelled as `Int` (`strconv.ParseInt` in `mkErr` accepts
    negative values). -/
structure b2err where
  msg : String
  method : String
  retry : Int
  code : Int
deriving DecidableEq, Repr

/-- A Go `error` value as `Action` sees it: the type assertion
    `err.(b2err)` either succeeds or the error is anything else. -/
inductive GoErr where
  | b2 (e : b2err)
  | other (msg : String)
deriving DecidableEq, Repr

/-- Action (base.go lines 66-89).  The Go source returns
    `AttemptNewUpload` from inside a nested `if` (5xx status and an
    upload method) and otherwise falls through to the `switch`; the
    nested `if` is flattened here into one conjunction, which reaches
    the `switch` cases in exactly the same states. -/
def Action : GoErr → ErrAction
  | .other _ => .Punt
  | .b2 e =>
    if 0 < e.retry then .Retry
    else if 500 ≤ e.code ∧ e.code < 600 ∧
        (e.method = "b2_upload_file" ∨ e.method = "b2_upload_part") then
      .AttemptNewUpload
    else if e.code = 401 then
      if e.method = "b2_authorize_account" then .Punt else .ReAuthenticate
    else if e.code = 429 ∨ e.code = 500 ∨ e.code = 503 then .Retry
    else .Punt

/-- One second, in the nanoseconds of Go's `time.Duration`. -/
def timeSecond : Int := 1000000000

/-- Backoff (base.go lines 148-154): `time.Duration(e.retry) * time.Second`
    for a `b2err`, `0` for any other error.  The result is in nanoseconds. -/
def Backoff : GoErr → Int
  | .other _ => 0
  | .b2 e => e.retry * timeSecond

/-! ## Large-file upload session (base.go lines 531-679)

The mutable state guarded by `LargeFile.mu` is the running `size`
(`int64`) and the Go map `hashes map[int]string`.  The map is embedded
as an association list with distinct keys; `insertPart` is map
assignment and `lookupPart` is map lookup.  Quantifying theorems over
every association list covers every iteration order of the Go map. -/

/-- Go map assignment `hashes[index] = sha1`: replace the binding if the
    key is present, otherwise add it. -/
def insertPart : List (Int × String) → Int → String → List (Int × String)
  | [], k, v => [(k, v)]
  | (k0, v0) :: rest, k, v =>
    if k0 = k then (k, v) :: rest else (k0, v0) :: insertPart rest k v

/-- Go map lookup `hashes[index]`. -/
def lookupPart : List (Int × String) → Int → Option String
  | [], _ => none
  | (k0, v0) :: rest, k => if k0 = k then some v0 else lookupPart rest k

/-- The mutable fields of LargeFile (base.go lines 532-539): the running
    total `size` and the part-number-to-digest map `hashes`. -/
structure LargeFileState where
  size : Int
  hashes : List (Int × String)
deriving DecidableEq, Repr

/-- FileChunk.UploadPart (base.go lines 628-643).  The outcome of the
    network call (`makeRequest`) is an oracle argument: on error the
    function returns `(0, err)` before touching the session, on success
    it records the digest and adds `size` under `fc.file.mu` and returns
    `(size, nil)`.  Result: (returned size, returned error, session state
    after the call). -/
def UploadPart (netErr : Option GoErr) (l : LargeFileState) (sha1 : String)
    (size : Int) (index : Int) : Int × Option GoErr × LargeFileState :=
  match netErr with
  | some e => (0, some e, l)
  | none =>
    (size, none,
      { size := l.size + size, hashes := insertPart l.hashes index sha1 })

/-- A Go runtime panic (an out-of-range slice index).  A panic is not a
    returned `error` value: it unwinds the calling goroutine. -/
inductive GoPanic where
  | indexOutOfRange
deriving DecidableEq, Repr

/-- The manifest-building loop of FinishLargeFile (base.go lines 661-666):
    `for k, v := range l.hashes { b2req.Hashes[k-1] = v }` over an array
    of length `len(l.hashes)`.  A write at a position outside
    `0 ≤ k-1 < len` is a Go runtime panic, modelled as `.error`; the loop
    stops there, as the goroutine unwinds. -/
def fillHashes : List (Int × String) → List String → Except GoPanic (List String)
  | [], arr => .ok arr
  | (k, v) :: rest, arr =>
    if 1 ≤ k ∧ k ≤ (arr.length : Int) then
      fillHashes rest (arr.set (k - 1).toNat v)
    else .error .indexOutOfRange

/-- LargeFile.FinishLargeFile (base.go lines 656-679): under `l.mu`,
    build `partSha1Array` from the map, then submit it and return a File
    whose `Size` is the running total `l.size`.  On `.ok` the pair is
    (submitted manifest, returned File.Size); on `.error` the function
    panicked while building the array, before any network request was
    made. -/
def FinishLargeFile (l : LargeFileState) : Except GoPanic (List String × Int) :=
  match fillHashes l.hashes (List.replicate l.hashes.length "") with
  | .error p => .error p
  | .ok arr => .ok (arr, l.size)

/-! ### Association-list lemmas -/

theorem lookupPart_insertPart_self (h : List (Int × String)) (k : Int) (v : String) :
    lookupPart (insertPart h k v) k = some v := by
  induction h with
  | nil => simp [insertPart, lookupPart]
  | cons p rest ih =>
    obtain ⟨k0, v0⟩ := p
    by_cases hk : k0 = k
    · simp [insertPart, lookupPart, hk]
    · simp [insertPart, lookupPart, hk, ih]

theorem lookupPart_insertPart_ne (h : List (Int × String)) (k j : Int) (v : String)
    (hj : j ≠ k) : lookupPart (insertPart h k v) j = lookupPart h j := by
  induction h with
  | nil => simp [insertPart, lookupPart, Ne.symm hj]
  | cons p rest ih =>
    obtain ⟨k0, v0⟩ := p
    by_cases hk : k0 = k
    · subst hk
      simp [insertPart, lookupPart, Ne.symm hj]
    · simp only [insertPart, if_neg hk, lookupPart]
      by_cases hj0 : k0 = j
      · simp [hj0]
      · simp [hj0, ih]

/-- Main lemma on the manifest-building loop: when the part numbers are
    distinct and all lie in `1..len(arr)`, the loop completes without a
    panic, keeps the array length, writes each part's digest at position
    `partNumber - 1` and leaves every other position unchanged. -/
theorem fillHashes_ok (rest : List (Int × String)) (arr : List String)
    (hnd : (rest.map Prod.fst).Nodup)
    (hin : ∀ p ∈ rest, 1 ≤ p.1 ∧ p.1 ≤ (arr.length : Int)) :
    ∃ res, fillHashes rest arr = .ok res ∧ res.length = arr.length ∧
      (∀ p ∈ rest, res[(p.1 - 1).toNat]? = some p.2) ∧
      (∀ j : Nat, (∀ p ∈ rest, (p.1 - 1).toNat ≠ j) → res[j]? = arr[j]?) := by
  induction rest generalizing arr with
  | nil => exact ⟨arr, rfl, rfl, by simp, fun _ _ => rfl⟩
  | cons hd tl ih =>
    obtain ⟨k, v⟩ := hd
    have hk : 1 ≤ k ∧ k ≤ (arr.length : Int) := hin (k, v) (by simp)
    have hset : (arr.set (k - 1).toNat v).length = arr.length := List.length_set arr _ v
    have hndtl : (tl.map Prod.fst).Nodup := (List.nodup_cons.mp hnd).2
    have hknotin : k ∉ tl.map Prod.fst := (List.nodup_cons.mp hnd).1
    obtain ⟨res, hres, hlen, hmem, hframe⟩ :=
      ih (arr.set (k - 1).toNat v) hndtl
        (fun p hp => by rw [hset]; exact hin p (List.mem_cons_of_mem _ hp))
    have hkeyne : ∀ p ∈ tl, ((p.1 : Int) - 1).toNat ≠ (k - 1).toNat := by
      intro p hp
      have h1 : 1 ≤ p.1 := (hin p (List.mem_cons_of_mem _ hp)).1
      have h2 : p.1 ≠ k := by
        intro hcontra
        exact hknotin (hcontra ▸ List.mem_map_of_mem Prod.fst hp)
      omega
    refine ⟨res, ?_, hlen.trans hset, ?_, ?_⟩
    · simpa [fillHashes, hk.1, hk.2] using hres
    · intro p hp
      rcases List.mem_cons.mp hp with heq | htl
      · subst heq
        have hlt : (k - 1).toNat < arr.length := by omega
        rw [hframe (k - 1).toNat hkeyne, List.getElem?_set_self hlt]
      · exact hmem p htl
    · intro j hj
      have hkj : (k - 1).toNat ≠ j := hj (k, v) (by simp)
      rw [hframe j (fun p hp => hj p (List.mem_cons_of_mem _ hp)),
        List.getElem?_set_ne hkj]

/-! ## Theorems settling the base.go claims -/

/-- C4: for a recorded-part map whose part numbers form a dense set
    `1..K` (here: distinct and all in `1..K` for `K` the number of
    recorded parts, which forces density), FinishLargeFile builds a
    digest array of length exactly `K` with the digest of part `p` at
    position `p-1`, independent of recording order (the theorem
    quantifies over every association list, hence every Go map iteration
    order), and returns a file whose Size equals the running total. -/
theorem FinishLargeFile_dense (l : LargeFileState)
    (hnd : (l.hashes.map Prod.fst).Nodup)
    (hin : ∀ p ∈ l.hashes, 1 ≤ p.1 ∧ p.1 ≤ (l.hashes.length : Int)) :
    ∃ arr, FinishLargeFile l = .ok (arr, l.size) ∧ arr.length = l.hashes.length ∧
      ∀ p ∈ l.hashes, arr[(p.1 - 1).toNat]? = some p.2 := by
  obtain ⟨res, hres, hlen, hmem, -⟩ :=
    fillHashes_ok l.hashes (List.replicate l.hashes.length "") hnd
      (by simpa using hin)
  refine ⟨res, ?_, by simpa using hlen, hmem⟩
  simp [FinishLargeFile, hres]

/-- Witness for C4: parts {1: a, 2: b, 3: c} recorded in order 3, 1, 2
    produce the manifest [a, b, c] and Size 99. -/
theorem FinishLargeFile_dense_witness :
    ∃ arr, FinishLargeFile ⟨99, [(3, "c"), (1, "a"), (2, "b")]⟩ = .ok (arr, 99) ∧
      arr.length = ([(3, "c"), (1, "a"), (2, "b")] : List (Int × String)).length ∧
      ∀ p ∈ ([(3, "c"), (1, "a"), (2, "b")] : List (Int × String)),
        arr[(p.1 - 1).toNat]? = some p.2 :=
  FinishLargeFile_dense ⟨99, [(3, "c"), (1, "a"), (2, "b")]⟩ (by decide) (by decide)

/-- C2: on the gapped part map {1: d1, 3: d3} (part 2 missing),
    FinishLargeFile does not fail with a validation error: it panics
    with an index-out-of-range (the loop writes position 3-1 = 2 into
    the length-2 array `make([]string, len(l.hashes))`).  The panic does
    happen before `makeRequest`, so no manifest is submitted, but no
    validation error is returned either — the goroutine crashes. -/
theorem FinishLargeFile_gap_panics :
    FinishLargeFile ⟨100, [(1, "d1"), (3, "d3")]⟩ = .error .indexOutOfRange := rfl

/-- C3 counterexample: uploading part 2 with size 5 and then again with
    size 7 leaves the running total at 12 = 5 + 7; the claim's predicted
    total 5 + (7 - 5) = 7 is wrong — `fc.file.size += int64(size)`
    accumulates both sizes and never subtracts the replaced one. -/
theorem UploadPart_reupload_counterexample :
    ((UploadPart none ((UploadPart none ⟨0, []⟩ "d1" 5 2).2.2) "d2" 7 2).2.2).size = 12 ∧
      (12 : Int) ≠ 5 + (7 - 5) := by
  exact ⟨rfl, by decide⟩

/-- C3 amended: a second successful UploadPart with the same part number
    replaces the prior digest record, and changes the running size total
    by the full second size s2 (both sizes accumulate), not by the delta
    s2 - s1. -/
theorem UploadPart_reupload_replaces_and_accumulates
    (l : LargeFileState) (d1 d2 : String) (s1 s2 : Int) (i : Int) :
    lookupPart ((UploadPart none ((UploadPart none l d1 s1 i).2.2) d2 s2 i).2.2).hashes i
        = some d2 ∧
    ((UploadPart none ((UploadPart none l d1 s1 i).2.2) d2 s2 i).2.2).size
        = l.size + s1 + s2 := by
  exact ⟨lookupPart_insertPart_self .., rfl⟩

/-- C10: an UploadPart whose network request fails returns size 0
    together with that error and leaves the session untouched; a
    successful call returns the size, records the digest under the part
    number, adds the size to the running total, and changes no other
    part's record. -/
theorem UploadPart_failure_frame (e : GoErr) (l : LargeFileState) (sha1 : String)
    (size : Int) (index : Int) :
    UploadPart (some e) l sha1 size index = (0, some e, l) ∧
    (UploadPart none l sha1 size index).1 = size ∧
    (UploadPart none l sha1 size index).2.1 = none ∧
    ((UploadPart none l sha1 size index).2.2).size = l.size + size ∧
    lookupPart ((UploadPart none l sha1 size index).2.2).hashes index = some sha1 ∧
    ∀ j : Int, j ≠ index →
      lookupPart ((UploadPart none l sha1 size index).2.2).hashes j
        = lookupPart l.hashes j := by
  exact ⟨rfl, rfl, rfl, rfl, lookupPart_insertPart_self .., fun j hj =>
    lookupPart_insertPart_ne l.hashes index j sha1 hj⟩

/-- C5 counterexample: a protocol error with the (non-zero) retry-after
    value -1 and status 404.  The claim's first rule ("Retry with the
    server-supplied wait whenever the retry-after duration is non-zero")
    demands Retry, but `Action` tests `e.retry > 0` and returns Punt. -/
theorem Action_negative_retry_counterexample :
    (⟨"", "b2_get_upload_url", -1, 404⟩ : b2err).retry ≠ 0 ∧
    Action (.b2 ⟨"", "b2_get_upload_url", -1, 404⟩) = .Punt ∧
    ErrAction.Punt ≠ ErrAction.Retry := by decide

/-- C5 amended: for errors whose server-supplied retry-after is
    non-negative the claimed classification holds: positive retry-after
    gives Retry with that wait; otherwise 5xx upload operations give
    AttemptNewUpload; otherwise 401 gives ReAuthenticate except for
    account authorization, which gives Punt; otherwise 429/500/503 give
    Retry with zero wait; every other status, and every error that is
    not a b2 protocol error, gives Punt. -/
theorem Action_classification (e : b2err) :
    (0 < e.retry → Action (.b2 e) = .Retry ∧ Backoff (.b2 e) = e.retry * timeSecond) ∧
    (e.retry = 0 → 500 ≤ e.code → e.code < 600 →
      (e.method = "b2_upload_file" ∨ e.method = "b2_upload_part") →
      Action (.b2 e) = .AttemptNewUpload) ∧
    (e.retry = 0 → e.code = 401 → e.method ≠ "b2_authorize_account" →
      Action (.b2 e) = .ReAuthenticate) ∧
    (e.retry = 0 → e.code = 401 → e.method = "b2_authorize_account" →
      Action (.b2 e) = .Punt) ∧
    (e.retry = 0 →
      ¬(500 ≤ e.code ∧ e.code < 600 ∧
        (e.method = "b2_upload_file" ∨ e.method = "b2_upload_part")) →
      (e.code = 429 ∨ e.code = 500 ∨ e.code = 503) →
      Action (.b2 e) = .Retry ∧ Backoff (.b2 e) = 0) ∧
    (e.retry = 0 →
      ¬(500 ≤ e.code ∧ e.code < 600 ∧
        (e.method = "b2_upload_file" ∨ e.method = "b2_upload_part")) →
      e.code ≠ 401 → ¬(e.code = 429 ∨ e.code = 500 ∨ e.code = 503) →
      Action (.b2 e) = .Punt) ∧
    (∀ msg, Action (.other msg) = .Punt ∧ Backoff (.other msg) = 0) := by
  refine ⟨?_, ?_, ?_, ?_, ?_, ?_, fun _ => ⟨rfl, rfl⟩⟩
  · intro h
    exact ⟨by simp only [Action]; rw [if_pos h], rfl⟩
  · intro h0 h5a h5b hm
    have hnr : ¬ 0 < e.retry := by omega
    simp only [Action]
    rw [if_neg hnr, if_pos ⟨h5a, h5b, hm⟩]
  · intro h0 h401 hm
    have hnr : ¬ 0 < e.retry := by omega
    have hn5 : ¬(500 ≤ e.code ∧ e.code < 600 ∧
        (e.method = "b2_upload_file" ∨ e.method = "b2_upload_part")) := by
      rintro ⟨h, -, -⟩; omega
    simp only [Action]
    rw [if_neg hnr, if_neg hn5, if_pos h401, if_neg hm]
  · intro h0 h401 hm
    have hnr : ¬ 0 < e.retry := by omega
    have hn5 : ¬(500 ≤ e.code ∧ e.code < 600 ∧
        (e.method = "b2_upload_file" ∨ e.method = "b2_upload_part")) := by
      rintro ⟨h, -, -⟩; omega
    simp only [Action]
    rw [if_neg hnr, if_neg hn5, if_pos h401, if_pos hm]
  · intro h0 hn5 hsw
    have hnr : ¬ 0 < e.retry := by omega
    have hn401 : e.code ≠ 401 := by omega
    refine ⟨?_, by simp [Backoff, h0]⟩
    simp only [Action]
    rw [if_neg hnr, if_neg hn5, if_neg hn401, if_pos hsw]
  · intro h0 hn5 hn401 hnsw
    have hnr : ¬ 0 < e.retry := by omega
    simp only [Action]
    rw [if_neg hnr, if_neg hn5, if_neg hn401, if_neg hnsw]

/-! ## Chunked download reader: the worker's range computation
(Reader.thread, lines 68-110) -/

/-- The byte range Reader.thread requests for a claimed chunk id
    (lines 85-93): offset is `chunkID * csize`; a worker whose offset is
    at or beyond the total size returns without issuing a request
    (`none`); otherwise the requested length starts at `csize` and is
    clamped by `if offset+size > r.size { size = r.size - offset }`. -/
def workerRequest (S csize chunkID : Nat) : Option (Nat × Nat) :=
  if S ≤ chunkID * csize then none
  else
    some (chunkID * csize,
      if S < chunkID * csize + csize then S - chunkID * csize else csize)

/-- C8: a worker whose claimed chunk starts at or beyond the object's
    size exits without a range request; otherwise it requests exactly
    `min(chunkSize, totalSize - offset)` bytes from offset
    `chunkID * chunkSize`, so no request extends past the object's end;
    and on a 25,000,000-byte object with chunk size 10,000,000 the
    requests are 10,000,000 / 10,000,000 / 5,000,000 with no fourth. -/
theorem workerRequest_clamped (S csize chunkID : Nat) :
    (S ≤ chunkID * csize → workerRequest S csize chunkID = none) ∧
    (chunkID * csize < S →
      workerRequest S csize chunkID =
        some (chunkID * csize, min csize (S - chunkID * csize))) ∧
    (∀ off n, workerRequest S csize chunkID = some (off, n) → off + n ≤ S) ∧
    workerRequest 25000000 10000000 0 = some (0, 10000000) ∧
    workerRequest 25000000 10000000 1 = some (10000000, 10000000) ∧
    workerRequest 25000000 10000000 2 = some (20000000, 5000000) ∧
    workerRequest 25000000 10000000 3 = none := by
  refine ⟨?_, ?_, ?_, by decide, by decide, by decide, by decide⟩
  · intro h
    simp only [workerRequest]
    rw [if_pos h]
  · intro h
    simp only [workerRequest]
    rw [if_neg (not_le.mpr h)]
    have : (if S < chunkID * csize + csize then S - chunkID * csize else csize)
        = min csize (S - chunkID * csize) := by
      rw [Nat.min_def]
      split_ifs <;> omega
    rw [this]
  · intro off n h
    simp only [workerRequest] at h
    split_ifs at h with h1 h2
    · simp only [Option.some_inj, Prod.mk.injEq] at h
      obtain ⟨rfl, rfl⟩ := h
      omega
    · simp only [Option.some_inj, Prod.mk.injEq] at h
      obtain ⟨rfl, rfl⟩ := h
      omega

/-! ## Chunked download reader: lazy one-time setup
(Reader.initFunc, lines 134-149; Reader.Read, line 152) -/

/-- The session parameters Reader.initFunc computes and the work it
    performs: the worker count `cr` (ConcurrentDownloads defaulted to 1
    when < 1), the chunk size (ChunkSize defaulted to 1e7 = 10,000,000
    when < 1), and the number of goroutines spawned and buffers seeded
    into `chbuf` (one of each per iteration of the `for i < cr` loop). -/
structure InitResult where
  cr : Int
  csize : Int
  threadsSpawned : Int
  buffersSeeded : Int
deriving DecidableEq, Repr

/-- Reader.initFunc (lines 134-149), on the two configuration fields
    ConcurrentDownloads and ChunkSize (Go ints). -/
def initFunc (concurrentDownloads chunkSizeField : Int) : InitResult :=
  { cr := if concurrentDownloads < 1 then 1 else concurrentDownloads
    csize := if chunkSizeField < 1 then 10000000 else chunkSizeField
    threadsSpawned := if concurrentDownloads < 1 then 1 else concurrentDownloads
    buffersSeeded := if concurrentDownloads < 1 then 1 else concurrentDownloads }

/-- sync.Once.Do: run the function only if it has not run before.
    Returns the once-cell after the call and whether the function ran. -/
def onceDo (st : Option InitResult) (f : Unit → InitResult) :
    Option InitResult × Bool :=
  match st with
  | some r => (some r, false)
  | none => (some (f ()), true)

/-- The initialization part of `n` successive Read calls (Read begins
    with `r.init.Do(r.initFunc)`, line 152): the once-cell after the
    calls and how many of the calls actually ran initFunc. -/
def readsInit (cd cs : Int) : Nat → Option InitResult × Nat
  | 0 => (none, 0)
  | n + 1 =>
    let p := readsInit cd cs n
    let q := onceDo p.1 (fun _ => initFunc cd cs)
    (q.1, p.2 + if q.2 then 1 else 0)

theorem readsInit_succ (cd cs : Int) (n : Nat) :
    readsInit cd cs (n + 1) = (some (initFunc cd cs), 1) := by
  induction n with
  | zero => rfl
  | succ m ih =>
    have hstep : readsInit cd cs (m + 1 + 1)
        = ((onceDo (readsInit cd cs (m + 1)).1 (fun _ => initFunc cd cs)).1,
           (readsInit cd cs (m + 1)).2 +
             if (onceDo (readsInit cd cs (m + 1)).1 (fun _ => initFunc cd cs)).2
             then 1 else 0) := rfl
    rw [hstep, ih]
    rfl

/-- C9: across any sequence of `n ≥ 1` Read calls, initFunc runs exactly
    once (on the first call, never again); it spawns exactly `cr` worker
    goroutines and seeds exactly `cr` buffers, where `cr` is the
    configured concurrency defaulted to 1 when below 1, and the chunk
    size defaults to 10,000,000 when below 1. -/
theorem initFunc_once (cd cs : Int) (n : Nat) (hn : 1 ≤ n) :
    readsInit cd cs n = (some (initFunc cd cs), 1) ∧
    (initFunc cd cs).threadsSpawned = (initFunc cd cs).cr ∧
    (initFunc cd cs).buffersSeeded = (initFunc cd cs).cr ∧
    (1 ≤ cd → (initFunc cd cs).cr = cd) ∧
    (cd < 1 → (initFunc cd cs).cr = 1) ∧
    (1 ≤ cs → (initFunc cd cs).csize = cs) ∧
    (cs < 1 → (initFunc cd cs).csize = 10000000) ∧
    1 ≤ (initFunc cd cs).cr := by
  obtain ⟨m, rfl⟩ := Nat.exists_eq_add_of_le hn
  refine ⟨by simpa [Nat.add_comm] using readsInit_succ cd cs m, rfl, rfl, ?_, ?_, ?_, ?_, ?_⟩
  · intro h
    simp [initFunc, not_lt.mpr h]
  · intro h
    simp [initFunc, h]
  · intro h
    simp [initFunc, not_lt.mpr h]
  · intro h
    simp [initFunc, h]
  · by_cases h : cd < 1
    · simp [initFunc, h]
    · simp only [initFunc, if_neg h]
      omega

/-- Witness for C9: with both configuration fields unset (0), three Read
    calls run initFunc exactly once, spawning one worker and seeding one
    buffer, with the 10,000,000-byte default chunk size. -/
theorem initFunc_once_witness :
    readsInit 0 0 3 = (some (initFunc 0 0), 1) ∧
    (initFunc 0 0).threadsSpawned = (initFunc 0 0).cr ∧
    (initFunc 0 0).buffersSeeded = (initFunc 0 0).cr ∧
    ((1 : Int) ≤ 0 → (initFunc 0 0).cr = 0) ∧
    ((0 : Int) < 1 → (initFunc 0 0).cr = 1) ∧
    ((1 : Int) ≤ 0 → (initFunc 0 0).csize = 0) ∧
    ((0 : Int) < 1 → (initFunc 0 0).csize = 10000000) ∧
    1 ≤ (initFunc 0 0).cr :=
  initFunc_once 0 0 3 (by decide)

/-! ## Chunked download reader: sequential consumption
(Reader.Read, lines 151-170; Reader.curChunk, lines 112-132)

The remote object is a byte list `data` with `S = data.length`.  A
worker that claims chunk `i` and succeeds writes into the buffer it
holds exclusively exactly the object's byte range
`[i*csize, min((i+1)*csize, S))` — `DownloadFileByName` with the
clamped range of `workerRequest`, copied by `copyContext` — and stores
that buffer under map key `i`, so while an entry is at or ahead of the
consume index its buffer holds the fixed range determined by its key,
whatever order chunks complete in (the buffer is reset and recycled —
and possibly refilled with a later chunk's bytes that the stale entry
then aliases — only after the consumer advances past the entry; the
`DState` machine below models this aliasing).  Completion order only
affects how long `curChunk` waits, and `curChunk` returns the chunk at
the consume index `chrid` exactly when some worker eventually stores
it, which (in an error-free run) happens if and only if
`chrid*csize < S`: chunk ids are claimed in increasing order under
`rmux`, a worker that claims an id already holds a pool buffer, and the
consumer recycles a buffer into `chbuf` on every chunk advance, so the
claim of every id below `ceil(S/csize)` is eventually made and
completed.

The consumer-visible state of one `Reader` is `read` (`r.read`,
cumulative bytes consumed), `chrid` (`r.chrid`, the chunk currently
being drained) and `closed` (whether `close(r.chbuf)` has run).
`readStep` is one `Read` call with a destination slice of length `c`:
`none` means the call never returns (it waits for a chunk no worker
will ever store) or panics (`close` of a closed channel); otherwise it
returns the bytes this call hands out, whether it reported `io.EOF`
(end-of-data), and the state after the call.  `bytes.Buffer.Read`
returns `io.EOF` only on an empty buffer with a non-empty destination,
`(0, nil)` on an empty destination, and otherwise up to `c` of the
remaining bytes with no error. -/

structure RState where
  read : Nat
  chrid : Nat
  closed : Bool
deriving DecidableEq, Repr

/-- Exclusive end of chunk `chrid` within the object: the worker's
    clamped range gives chunk `chrid` the bytes `[chrid*csize, chunkHi)`. -/
def chunkHi (S csize chrid : Nat) : Nat := min ((chrid + 1) * csize) S

/-- One Read call (lines 151-170) with a destination of length `c`. -/
def readStep (data : List Nat) (csize c : Nat) (st : RState) :
    Option (List Nat × Bool × RState) :=
  if data.length ≤ st.chrid * csize then none
  else if chunkHi data.length csize st.chrid - st.read = 0 then
    if c = 0 then some ([], false, st)
    else if data.length ≤ st.read then
      if st.closed then none
      else some ([], true, { st with closed := true })
    else some ([], false, { st with chrid := st.chrid + 1 })
  else
    some ((data.drop st.read).take (min c (chunkHi data.length csize st.chrid - st.read)),
      false,
      { st with read := st.read + min c (chunkHi data.length csize st.chrid - st.read) })

/-- A sequence of Read calls with destination lengths `cs`, from state
    `st`: the concatenation of all bytes handed out and the final state,
    or `none` when some call in the sequence blocks forever or panics. -/
def runReads (data : List Nat) (csize : Nat) : List Nat → RState → Option (List Nat × RState)
  | [], st => some ([], st)
  | c :: cs, st =>
    match readStep data csize c st with
    | none => none
    | some (out, _, st') =>
      match runReads data csize cs st' with
      | none => none
      | some (outs, stf) => some (out ++ outs, stf)

/-- Number of chunks of an object of `S` bytes at chunk size `csize`
    (`ceil(S/csize)` for `S ≥ 1`). -/
def numChunks (S csize : Nat) : Nat :=
  if S ≤ csize ∨ csize = 0 then 1
  else 1 + numChunks (S - csize) csize
termination_by S
decreasing_by omega

/-- Consumer-state invariant: consumed bytes sit inside the current
    chunk's range, a closed pool means the whole object was consumed,
    and the current chunk exists (its start offset is below `S`). -/
def RInv (S csize : Nat) (st : RState) : Prop :=
  st.chrid * csize ≤ st.read ∧ st.read ≤ chunkHi S csize st.chrid ∧
    (st.closed = true → st.read = S) ∧ st.chrid * csize < S

theorem numChunks_pos (S csize : Nat) : 1 ≤ numChunks S csize := by
  rw [numChunks]
  split_ifs <;> omega

/-! ### Evaluation lemmas for the four branches of a Read call -/

theorem readStep_consume (data : List Nat) (csize c r ch : Nat) (b : Bool)
    (h1 : ch * csize < data.length) (h2 : 0 < chunkHi data.length csize ch - r) :
    readStep data csize c ⟨r, ch, b⟩
      = some ((data.drop r).take (min c (chunkHi data.length csize ch - r)), false,
          ⟨r + min c (chunkHi data.length csize ch - r), ch, b⟩) := by
  simp only [readStep]
  rw [if_neg (not_le.mpr h1), if_neg (by omega)]

theorem readStep_advance (data : List Nat) (csize c r ch : Nat) (b : Bool)
    (h1 : ch * csize < data.length) (h2 : chunkHi data.length csize ch - r = 0)
    (hc : c ≠ 0) (h3 : r < data.length) :
    readStep data csize c ⟨r, ch, b⟩ = some ([], false, ⟨r, ch + 1, b⟩) := by
  simp only [readStep]
  rw [if_neg (not_le.mpr h1), if_pos h2, if_neg hc, if_neg (not_le.mpr h3)]

theorem readStep_eofStep (data : List Nat) (csize c r ch : Nat)
    (h1 : ch * csize < data.length) (h2 : chunkHi data.length csize ch - r = 0)
    (hc : c ≠ 0) (h3 : data.length ≤ r) :
    readStep data csize c ⟨r, ch, false⟩ = some ([], true, ⟨r, ch, true⟩) := by
  simp only [readStep]
  rw [if_neg (not_le.mpr h1), if_pos h2, if_neg hc, if_pos h3]
  simp

/-! ### List splicing lemmas -/

theorem take_drop_self (l : List Nat) (r : Nat) : (l.take r).drop r = [] := by
  apply List.drop_eq_nil_of_le
  rw [List.length_take]
  exact Nat.min_le_left _ _

theorem drop_take_comm (l : List Nat) (r n : Nat) :
    (l.drop r).take n = (l.take (r + n)).drop r := by
  rw [List.drop_take]
  have h : r + n - r = n := by omega
  rw [h]

theorem take_drop_glue (l : List Nat) (a b c' : Nat) (hab : a ≤ b)
    (hbl : b ≤ l.length) (hbc : b ≤ c') :
    (l.take b).drop a ++ (l.take c').drop b = (l.take c').drop a := by
  have h1 : l.take b ++ (l.take c').drop b = l.take c' := by
    conv_lhs =>
      rw [show l.take b = (l.take c').take b by rw [List.take_take, Nat.min_eq_left hbc]]
    exact List.take_append_drop b (l.take c')
  calc (l.take b).drop a ++ (l.take c').drop b
      = (l.take b ++ (l.take c').drop b).drop a := by
        rw [List.drop_append_of_le_length (by rw [List.length_take]; omega)]
    _ = (l.take c').drop a := by rw [h1]

/-! ### One-step soundness of the consumer -/

theorem readStep_facts (data : List Nat) (csize c : Nat) (st : RState)
    (hinv : RInv data.length csize st) :
    (st.closed = false → readStep data csize c st ≠ none) ∧
    ∀ out eof st', readStep data csize c st = some (out, eof, st') →
      RInv data.length csize st' ∧ st.read ≤ st'.read ∧
      out = (data.take st'.read).drop st.read ∧
      (eof = true ↔ data.length ≤ st.read ∧ st.closed = false ∧ 1 ≤ c) ∧
      (eof = true → st'.read = data.length ∧ st'.closed = true) ∧
      (st'.closed = st.closed ∨ eof = true) := by
  obtain ⟨r, ch, b⟩ := st
  obtain ⟨hlo, hhi, hcl, hlt⟩ := hinv
  dsimp only at hlo hhi hcl hlt
  have hhiS : chunkHi data.length csize ch ≤ data.length := Nat.min_le_right _ _
  have hS : r ≤ data.length := le_trans hhi hhiS
  by_cases hrem : chunkHi data.length csize ch - r = 0
  · by_cases hc : c = 0
    · have heval : readStep data csize c ⟨r, ch, b⟩ = some ([], false, ⟨r, ch, b⟩) := by
        simp only [readStep]
        rw [if_neg (not_le.mpr hlt), if_pos hrem, if_pos hc]
      rw [heval]
      refine ⟨fun _ => by simp, ?_⟩
      intro out eof st' h
      simp only [Option.some_inj, Prod.mk.injEq] at h
      obtain ⟨rfl, rfl, rfl⟩ := h
      refine ⟨⟨hlo, hhi, hcl, hlt⟩, le_refl _, (take_drop_self ..).symm, ?_, by simp,
        Or.inl rfl⟩
      constructor
      · intro hfe
        exact absurd hfe (by simp)
      · rintro ⟨-, -, h1⟩
        omega
    · by_cases hend : data.length ≤ r
      · have hreq : r = data.length := le_antisymm hS hend
        cases b with
        | true =>
          have heval : readStep data csize c ⟨r, ch, true⟩ = none := by
            simp only [readStep]
            rw [if_neg (not_le.mpr hlt), if_pos hrem, if_neg hc, if_pos hend]
            simp
          rw [heval]
          refine ⟨fun hf => absurd hf (by simp), ?_⟩
          intro out eof st' h
          exact absurd h (by simp)
        | false =>
          rw [readStep_eofStep data csize c r ch hlt hrem hc hend]
          refine ⟨fun _ => by simp, ?_⟩
          intro out eof st' h
          simp only [Option.some_inj, Prod.mk.injEq] at h
          obtain ⟨rfl, rfl, rfl⟩ := h
          refine ⟨⟨hlo, hhi, fun _ => hreq, hlt⟩, le_refl _, (take_drop_self ..).symm,
            ?_, fun _ => ⟨hreq, rfl⟩, Or.inr rfl⟩
          exact ⟨fun _ => ⟨hend, rfl, by omega⟩, fun _ => rfl⟩
      · have hlt2 : r < data.length := Nat.lt_of_not_le hend
        have hbf : b = false := by
          cases b with
          | false => rfl
          | true => exact absurd (hcl rfl) (by omega)
        subst hbf
        rw [readStep_advance data csize c r ch false hlt hrem hc hlt2]
        have hmin : min ((ch + 1) * csize) data.length = (ch + 1) * csize := by
          rcases Nat.le_total ((ch + 1) * csize) data.length with h' | h'
          · exact Nat.min_eq_left h'
          · exfalso
            have hq : r = data.length := by
              have h1 : chunkHi data.length csize ch = data.length := by
                rw [chunkHi, Nat.min_eq_right h']
              omega
            omega
        have hA : r = (ch + 1) * csize := by
          have h1 : chunkHi data.length csize ch = (ch + 1) * csize := by
            rw [chunkHi, hmin]
          omega
        have hAS : (ch + 1) * csize < data.length := by omega
        refine ⟨fun _ => by simp, ?_⟩
        intro out eof st' h
        simp only [Option.some_inj, Prod.mk.injEq] at h
        obtain ⟨rfl, rfl, rfl⟩ := h
        refine ⟨⟨le_of_eq hA.symm, ?_, fun hcf => absurd hcf (by simp), hAS⟩,
          le_refl _, (take_drop_self ..).symm, ?_, by simp, Or.inl rfl⟩
        · have he2 : (ch + 1 + 1) * csize = (ch + 1) * csize + csize := by ring
          exact le_min (by dsimp only; omega) (by dsimp only; omega)
        · constructor
          · intro hfe
            exact absurd hfe (by simp)
          · rintro ⟨h1, -, -⟩
            dsimp only at h1
            omega
  · have hrempos : 0 < chunkHi data.length csize ch - r := by omega
    rw [readStep_consume data csize c r ch b hlt hrempos]
    refine ⟨fun _ => by simp, ?_⟩
    intro out eof st' h
    simp only [Option.some_inj, Prod.mk.injEq] at h
    obtain ⟨rfl, rfl, rfl⟩ := h
    have hn'le : min c (chunkHi data.length csize ch - r) ≤ chunkHi data.length csize ch - r :=
      Nat.min_le_right _ _
    refine ⟨⟨le_trans hlo (Nat.le_add_right _ _), by dsimp only; omega, ?_, hlt⟩,
      Nat.le_add_right _ _, ?_, ?_, by simp, Or.inl rfl⟩
    · intro hcf
      dsimp only at hcf
      exact absurd (hcl hcf) (by omega)
    · exact drop_take_comm ..
    · constructor
      · intro hfe
        exact absurd hfe (by simp)
      · rintro ⟨h1, -, -⟩
        dsimp only at h1
        omega

/-- Multi-step soundness: any sequence of Read calls that returns (does
    not block or panic) preserves the invariant, consumes monotonically,
    hands out exactly the object's bytes between the start and end
    consume positions, and closes the pool only by reporting EOF. -/
theorem runReads_sound (data : List Nat) (csize : Nat) (cs : List Nat) (st : RState)
    (hinv : RInv data.length csize st) :
    ∀ out stf, runReads data csize cs st = some (out, stf) →
      RInv data.length csize stf ∧ st.read ≤ stf.read ∧
      out = (data.take stf.read).drop st.read ∧
      (stf.closed = st.closed ∨ stf.closed = true) := by
  induction cs generalizing st with
  | nil =>
    intro out stf h
    simp only [runReads, Option.some_inj, Prod.mk.injEq] at h
    obtain ⟨rfl, rfl⟩ := h
    exact ⟨hinv, le_refl _, (take_drop_self ..).symm, Or.inl rfl⟩
  | cons c cs ih =>
    intro out stf h
    simp only [runReads] at h
    cases hstep : readStep data csize c st with
    | none =>
      rw [hstep] at h
      simp at h
    | some r =>
      obtain ⟨out1, eof, st1⟩ := r
      rw [hstep] at h
      dsimp only at h
      cases hrun : runReads data csize cs st1 with
      | none =>
        rw [hrun] at h
        simp at h
      | some r2 =>
        obtain ⟨out2, stf2⟩ := r2
        rw [hrun] at h
        dsimp only at h
        simp only [Option.some_inj, Prod.mk.injEq] at h
        obtain ⟨rfl, rfl⟩ := h
        obtain ⟨-, hfacts⟩ := readStep_facts data csize c st hinv
        obtain ⟨hinv1, hle1, hout1, -, heof1, hcl1⟩ := hfacts out1 eof st1 hstep
        obtain ⟨hinvf, hlef, houtf, hclf⟩ := ih st1 hinv1 out2 stf2 hrun
        refine ⟨hinvf, le_trans hle1 hlef, ?_, ?_⟩
        · rw [hout1, houtf]
          exact take_drop_glue data st.read st1.read stf2.read hle1
            (le_trans hinv1.2.1 (Nat.min_le_right _ _)) hlef
        · rcases hclf with h' | h'
          · rcases hcl1 with h'' | h''
            · exact Or.inl (h'.trans h'')
            · exact Or.inr (h'.trans (heof1 h'').2)
          · exact Or.inr h'

/-- Completeness of consumption: starting at the boundary of chunk `j`
    with `n > 0` bytes left, `2 * numChunks n csize` Read calls with
    destination length `csize` drain the rest of the object exactly and
    end with the EOF report and a closed pool. -/
theorem runReads_drain (data : List Nat) (csize : Nat) (hcs : 1 ≤ csize) :
    ∀ n j, n = data.length - j * csize → 0 < n → j * csize < data.length →
      runReads data csize (List.replicate (2 * numChunks n csize) csize)
          ⟨j * csize, j, false⟩
        = some (data.drop (j * csize),
            ⟨data.length, j + (numChunks n csize - 1), true⟩) := by
  intro n
  induction n using Nat.strong_induction_on with
  | _ n ih =>
    intro j hn hpos hjS
    have hcs0 : csize ≠ 0 := by omega
    by_cases hlast : n ≤ csize
    · have hnum : numChunks n csize = 1 := by
        rw [numChunks]
        simp [hlast]
      rw [hnum]
      have hrep : List.replicate (2 * 1) csize = [csize, csize] := rfl
      rw [hrep]
      have hHi : chunkHi data.length csize j = data.length := by
        have e1 : (j + 1) * csize = j * csize + csize := by ring
        rw [chunkHi, Nat.min_eq_right (by omega)]
      have hsub : chunkHi data.length csize j - j * csize = n := by omega
      have e1 : readStep data csize csize ⟨j * csize, j, false⟩
          = some (data.drop (j * csize), false, ⟨data.length, j, false⟩) := by
        rw [readStep_consume data csize csize (j * csize) j false hjS (by omega)]
        rw [hsub, Nat.min_eq_right hlast]
        have htake : (data.drop (j * csize)).take n = data.drop (j * csize) := by
          apply List.take_of_length_le
          rw [List.length_drop]
          omega
        rw [htake]
        have hread : j * csize + n = data.length := by omega
        rw [hread]
      have e2 : readStep data csize csize ⟨data.length, j, false⟩
          = some ([], true, ⟨data.length, j, true⟩) := by
        apply readStep_eofStep data csize csize data.length j hjS (by omega) hcs0
          (le_refl _)
      simp only [runReads, e1, e2]
      simp
    · have hnum : numChunks n csize = 1 + numChunks (n - csize) csize := by
        rw [numChunks]
        rw [if_neg (by omega)]
      have hmpos : 1 ≤ numChunks (n - csize) csize := numChunks_pos _ _
      rw [hnum]
      have hrep : 2 * (1 + numChunks (n - csize) csize)
          = 2 * numChunks (n - csize) csize + 1 + 1 := by ring
      rw [hrep, List.replicate_succ, List.replicate_succ]
      have e0 : (j + 1) * csize = j * csize + csize := by ring
      have hHi : chunkHi data.length csize j = j * csize + csize := by
        rw [chunkHi, e0, Nat.min_eq_left (by omega)]
      have e1 : readStep data csize csize ⟨j * csize, j, false⟩
          = some ((data.drop (j * csize)).take csize, false,
              ⟨j * csize + csize, j, false⟩) := by
        rw [readStep_consume data csize csize (j * csize) j false hjS (by omega)]
        have hsub : chunkHi data.length csize j - j * csize = csize := by omega
        rw [hsub, Nat.min_self]
      have e2 : readStep data csize csize ⟨j * csize + csize, j, false⟩
          = some ([], false, ⟨j * csize + csize, j + 1, false⟩) := by
        apply readStep_advance data csize csize (j * csize + csize) j false hjS
          (by omega) hcs0 (by omega)
      have ihres := ih (n - csize) (by omega) (j + 1) (by rw [e0]; omega)
        (by omega) (by rw [e0]; omega)
      rw [e0] at ihres
      simp only [runReads, e1, e2, ihres]
      have hdd : data.drop (j * csize + csize) = (data.drop (j * csize)).drop csize := by
        rw [List.drop_drop]
      rw [hdd]
      simp only [List.nil_append, List.take_append_drop]
      have hchr : j + 1 + (numChunks (n - csize) csize - 1)
          = j + (1 + numChunks (n - csize) csize - 1) := by omega
      rw [hchr]

/-- C1 counterexample (the S = 0 boundary): on an empty object every
    worker exits immediately (`offset >= r.size` holds for chunk 0), so
    no worker ever stores chunk 0 and the first Read call's `curChunk`
    waits forever: the call blocks (`none`) instead of reporting
    end-of-data, although the cumulative bytes consumed (0) already
    equal the object size, whereas a direct single-shot read of the same
    0 bytes reports end-of-data at once. -/
theorem Reader_blocks_on_empty_object :
    readStep ([] : List Nat) 1 1 ⟨0, 0, false⟩ = none ∧
    runReads ([] : List Nat) 1 [1] ⟨0, 0, false⟩ = none :=
  ⟨rfl, rfl⟩

/-- C1, amended to objects of at least one byte: for every object
    `data` with `data.length ≥ 1` and every chunk size ≥ 1, consuming
    the Reader via successive Read calls yields exactly the same byte
    sequence as a direct single-shot read — this holds for every order
    in which chunk downloads complete, because a worker writes the
    fixed range `[i*csize, min((i+1)*csize, S))` of the object into a
    buffer it holds exclusively, and the map entry at the consume index
    keeps that buffer untouched until the consumer drains it: reset and
    recycling (the aliasing the `DState` machine below models) happen
    only to entries the consumer has already advanced past, so the
    bytes Read takes from the current chunk are independent of
    completion order, and Read waits on the single consume index.
    Every returning sequence of Read calls hands out exactly the object
    prefix up to the final consume position; no call blocks before the
    pool is closed; a call reports end-of-data exactly when the
    cumulative consumed bytes equal the object size (and it has a
    non-empty destination); and the canonical schedule of
    `2 * numChunks` calls consumes exactly `data` and ends with the EOF
    report. -/
theorem Reader_refines_direct_read (data : List Nat) (csize : Nat)
    (hS : 1 ≤ data.length) (hcs : 1 ≤ csize) :
    (∀ cs out stf, runReads data csize cs ⟨0, 0, false⟩ = some (out, stf) →
       out = data.take stf.read ∧ stf.read ≤ data.length ∧
       (stf.closed = true → stf.read = data.length) ∧
       (stf.closed = false → ∀ c, readStep data csize c stf ≠ none) ∧
       (∀ c out2 eof st2, readStep data csize c stf = some (out2, eof, st2) →
          (eof = true ↔ data.length ≤ stf.read ∧ stf.closed = false ∧ 1 ≤ c))) ∧
    runReads data csize (List.replicate (2 * numChunks data.length csize) csize)
        ⟨0, 0, false⟩
      = some (data, ⟨data.length, numChunks data.length csize - 1, true⟩) := by
  have hinit : RInv data.length csize ⟨0, 0, false⟩ := by
    refine ⟨by dsimp only; omega, Nat.zero_le _, ?_, by dsimp only; omega⟩
    intro h
    simp at h
  constructor
  · intro cs out stf h
    obtain ⟨hinvf, -, hout, -⟩ :=
      runReads_sound data csize cs ⟨0, 0, false⟩ hinit out stf h
    refine ⟨by simpa using hout, le_trans hinvf.2.1 (Nat.min_le_right _ _),
      hinvf.2.2.1, ?_, ?_⟩
    · intro hcf c
      exact (readStep_facts data csize c stf hinvf).1 hcf
    · intro c out2 eof st2 h2
      exact ((readStep_facts data csize c stf hinvf).2 out2 eof st2 h2).2.2.2.1
  · have hd := runReads_drain data csize hcs data.length 0 (by omega) (by omega)
      (by omega)
    simpa using hd

/-- Witness for C1: the two-byte object [7, 9] read at chunk size 1. -/
theorem Reader_refines_direct_read_witness :
    (∀ cs out stf, runReads [7, 9] 1 cs ⟨0, 0, false⟩ = some (out, stf) →
       out = ([7, 9] : List Nat).take stf.read ∧
       stf.read ≤ ([7, 9] : List Nat).length ∧
       (stf.closed = true → stf.read = ([7, 9] : List Nat).length) ∧
       (stf.closed = false → ∀ c, readStep [7, 9] 1 c stf ≠ none) ∧
       (∀ c out2 eof st2, readStep [7, 9] 1 c stf = some (out2, eof, st2) →
          (eof = true ↔ ([7, 9] : List Nat).length ≤ stf.read ∧
            stf.closed = false ∧ 1 ≤ c))) ∧
    runReads [7, 9] 1 (List.replicate (2 * numChunks ([7, 9] : List Nat).length 1) 1)
        ⟨0, 0, false⟩
      = some ([7, 9], ⟨([7, 9] : List Nat).length,
          numChunks ([7, 9] : List Nat).length 1 - 1, true⟩) :=
  Reader_refines_direct_read [7, 9] 1 (by decide) (by decide)

/-! ## Chunked download reader: shared session state machine
(Reader.thread, lines 68-110; Reader.setErr, lines 54-60;
Reader.curChunk / Reader.Read, lines 112-170)

The shared mutable state of one download session and its transitions.
The `cr` reusable `*bytes.Buffer` objects are modelled as heap cells
identified by `Nat` ids: `bufs` is the heap (id to current bytes), and
`pool`, `inflight` and `chunks` hold ids — pointers — into it.  A map
entry and the pool (or a worker) can alias the same cell: after the
consumer drains chunk `i`, `Read` resets the shared buffer and sends it
back into `chbuf` while `r.chunks[i]` still points at it, and a worker
that receives the recycled buffer refills it with a later chunk's
bytes, all of which the stale entry observes.  Claims are guarded only
by buffer availability (a buffered channel still hands out its queued
buffers after `close`), so the relation admits every interleaving and
chunk completion order the Go scheduler could produce. -/

/-- Reader.setErr (lines 54-60): latch the first error, keep it once set. -/
def setErr (cur : Option String) (e : String) : Option String :=
  match cur with
  | none => some e
  | some e0 => some e0

/-- Folding setErr over the errors the workers report, in order. -/
def latchAll (es : List String) : Option String := es.foldl setErr none

/-- The bytes a successful worker writes into its buffer for chunk `i`:
    the object's range `[i*csize, min((i+1)*csize, S))` (the clamped
    range request of `workerRequest`, streamed in by `copyContext`). -/
def chunkSlice (data : List Nat) (csize i : Nat) : List Nat :=
  (data.drop (i * csize)).take csize

/-- Shared state of one download session: the dispatch counter `chwid`,
    consume counter `chrid`, cumulative consumed bytes `read`, the
    buffer ids queued in `chbuf` (`pool`), the (chunk id, buffer id)
    pairs claimed by workers that have not yet stored or failed
    (`inflight`), the map `r.chunks` as (key, buffer id) pairs — the
    map stores pointers, so entries are never remapped when the buffer
    they point to is recycled — the buffer heap `bufs`, the latched
    error, and whether `close(r.chbuf)` has run. -/
structure DState where
  chwid : Nat
  chrid : Nat
  read : Nat
  pool : List Nat
  inflight : List (Nat × Nat)
  chunks : List (Nat × Nat)
  bufs : List (Nat × List Nat)
  err : Option String
  closed : Bool
deriving DecidableEq, Repr

/-- Go map lookup, used for `r.chunks[r.chrid]` and for the buffer
    heap. -/
def lookupChunk {α : Type} : List (Nat × α) → Nat → Option α
  | [], _ => none
  | (k, b) :: rest, i => if k = i then some b else lookupChunk rest i

/-- Heap update: overwrite the cell of buffer `b` — the in-place
    mutation of the shared `bytes.Buffer` that every alias observes. -/
def setBuf : List (Nat × List Nat) → Nat → List Nat → List (Nat × List Nat)
  | [], b, v => [(b, v)]
  | (b0, v0) :: rest, b, v =>
    if b0 = b then (b, v) :: rest else (b0, v0) :: setBuf rest b v

/-- One Read call (lines 151-170) on the shared state, destination
    length `c`: the result is ((bytes handed out, end-of-data reported,
    returned error), state after).  With a latched error, `curChunk`
    stops waiting and `Read` returns `(0, err)` untouched (lines
    117, 128, 154-155).  With no error, the call waits for the map entry
    at `chrid` (`none` = still blocked).  `chunk.Read` consumes from the
    front of the buffer the current entry points to; the per-call count
    follows the consume counters `read`/`chunkHi`, which track that
    buffer's remaining bytes in every error-free schedule, because the
    current entry's buffer is recycled only after the consumer advances
    past it.  Draining a chunk advances `chrid`, resets the shared
    buffer (`chunk.Reset()`) and sends it back into `chbuf` while the
    map entry keeps pointing at it — the entry is NOT deleted, it now
    aliases a recycled buffer — and the final `io.EOF` closes `chbuf`. -/
def ReadD (data : List Nat) (csize c : Nat) (s : DState) :
    Option ((Nat × Bool × Option String) × DState) :=
  match s.err with
  | some e => some ((0, false, some e), s)
  | none =>
    match lookupChunk s.chunks s.chrid with
    | none => none
    | some b =>
      if chunkHi data.length csize s.chrid - s.read = 0 then
        if c = 0 then some ((0, false, none), s)
        else if data.length ≤ s.read then
          if s.closed then none
          else some ((0, true, none), { s with closed := true })
        else
          some ((0, false, none),
            { s with chrid := s.chrid + 1, pool := b :: s.pool,
                     bufs := setBuf s.bufs b [] })
      else
        some ((min c (chunkHi data.length csize s.chrid - s.read), false, none),
          { s with read := s.read + min c (chunkHi data.length csize s.chrid - s.read),
                   bufs := setBuf s.bufs b
                     (((lookupChunk s.bufs b).getD []).drop
                       (min c (chunkHi data.length csize s.chrid - s.read))) })

/-- One transition of a download session.  A claim is one worker
    receiving buffer `b` from `chbuf` and atomically claiming the next
    chunk id under `rmux` (lines 71-84); a worker whose offset is at or
    beyond the object size returns, dropping its buffer (lines 87-89).
    `storeOk` is the successful completion of the claimed range request:
    the worker writes the downloaded range — a fixed function of the
    chunk id — into the shared buffer it holds (so a stale map entry
    still pointing at that recycled buffer now aliases the new chunk's
    bytes) and places the buffer's pointer in the map under the chunk id
    (lines 93-107).  `storeFail` latches the error via `setErr` and
    drops the buffer.  `readCall` is one `Read` call. -/
inductive DStep (data : List Nat) (csize : Nat) : DState → DState → Prop
  | claimBeyond (s : DState) (b : Nat) (hb : b ∈ s.pool)
      (h2 : data.length ≤ s.chwid * csize) :
      DStep data csize s { s with pool := s.pool.erase b, chwid := s.chwid + 1 }
  | claimOk (s : DState) (b : Nat) (hb : b ∈ s.pool)
      (h2 : s.chwid * csize < data.length) :
      DStep data csize s
        { s with pool := s.pool.erase b, chwid := s.chwid + 1,
                 inflight := (s.chwid, b) :: s.inflight }
  | storeOk (s : DState) (i b : Nat) (h : (i, b) ∈ s.inflight) :
      DStep data csize s
        { s with inflight := s.inflight.erase (i, b),
                 chunks := (i, b) :: s.chunks,
                 bufs := setBuf s.bufs b (chunkSlice data csize i) }
  | storeFail (s : DState) (i b : Nat) (msg : String) (h : (i, b) ∈ s.inflight) :
      DStep data csize s
        { s with inflight := s.inflight.erase (i, b), err := setErr s.err msg }
  | readCall (s s' : DState) (c : Nat) (r : Nat × Bool × Option String)
      (h : ReadD data csize c s = some (r, s')) :
      DStep data csize s s'

/-- The states a session with `cr` seeded buffers can reach: initFunc
    leaves `chwid = chrid = read = 0`, the `cr` fresh empty buffers
    queued in `chbuf`, no in-flight work, an empty map and no error. -/
inductive DReach (data : List Nat) (csize cr : Nat) : DState → Prop
  | init : DReach data csize cr
      ⟨0, 0, 0, List.range cr, [], [],
        (List.range cr).map (fun b => (b, [])), none, false⟩
  | step {s s' : DState} (hs : DReach data csize cr s) (h : DStep data csize s s') :
      DReach data csize cr s'

/-- Number of map entries for chunks not yet fully consumed (the
    completed-but-unconsumed chunks; entries with key below `chrid` are
    already consumed but still present, pointing at recycled buffers). -/
def unconsumed (s : DState) : Nat :=
  (s.chunks.filter (fun p => s.chrid ≤ p.1)).length

/-- Inductive invariant of the session: the `cr` buffers are conserved
    (every buffer is queued in `chbuf`, held by an in-flight worker, or
    owned by a completed-but-unconsumed map entry — the rest were
    dropped by exiting workers), chunk ids in the map and in flight are
    pairwise distinct, in-flight chunks are never behind the consumer
    nor ahead of the dispatch counter, every map key is a claimed
    chunk, and the consumer never overtakes the dispatcher. -/
def DInv (cr : Nat) (s : DState) : Prop :=
  s.pool.length + s.inflight.length + unconsumed s ≤ cr ∧
  (s.chunks.map Prod.fst ++ s.inflight.map Prod.fst).Nodup ∧
  (∀ p ∈ s.inflight, s.chrid ≤ p.1 ∧ p.1 < s.chwid) ∧
  (∀ p ∈ s.chunks, p.1 < s.chwid) ∧
  s.chrid ≤ s.chwid

theorem lookupChunk_mem {α : Type} (l : List (Nat × α)) (i : Nat) (b : α)
    (h : lookupChunk l i = some b) : (i, b) ∈ l := by
  induction l with
  | nil => simp [lookupChunk] at h
  | cons hd rest ih =>
    obtain ⟨k, bb⟩ := hd
    simp only [lookupChunk] at h
    by_cases hk : k = i
    · rw [if_pos hk] at h
      subst hk
      simp only [Option.some_inj] at h
      subst h
      exact List.mem_cons_self _ _
    · rw [if_neg hk] at h
      exact List.mem_cons_of_mem _ (ih h)

/-- With pairwise-distinct keys, a key determines its value. -/
theorem fst_inj_of_nodup (l : List (Nat × Nat)) (hnd : (l.map Prod.fst).Nodup)
    (i b c : Nat) (h1 : (i, b) ∈ l) (h2 : (i, c) ∈ l) : b = c := by
  induction l with
  | nil => cases h1
  | cons hd tl ih =>
    obtain ⟨j, d⟩ := hd
    simp only [List.map_cons, List.nodup_cons] at hnd
    obtain ⟨hjnotin, hndtl⟩ := hnd
    rcases List.mem_cons.mp h1 with he1 | ht1 <;> rcases List.mem_cons.mp h2 with he2 | ht2
    · injection he1 with ha1 hb1
      injection he2 with ha2 hb2
      rw [hb1, hb2]
    · injection he1 with ha1 hb1
      exact absurd (ha1 ▸ List.mem_map_of_mem Prod.fst ht2) hjnotin
    · injection he2 with ha2 hb2
      exact absurd (ha2 ▸ List.mem_map_of_mem Prod.fst ht1) hjnotin
    · exact ih hndtl ht1 ht2

/-- Key counting: entries with key at least `m` are one more than the
    entries with key at least `m+1`, when key `m` is present exactly
    once. -/
theorem filter_chrid_succ (l : List (Nat × Nat)) (m : Nat) (b : Nat)
    (hnd : (l.map Prod.fst).Nodup) (hmem : (m, b) ∈ l) :
    (l.filter (fun p => m + 1 ≤ p.1)).length + 1
      = (l.filter (fun p => m ≤ p.1)).length := by
  induction l with
  | nil => cases hmem
  | cons hd tl ih =>
    obtain ⟨k, bb⟩ := hd
    simp only [List.map_cons, List.nodup_cons] at hnd
    obtain ⟨hknotin, hndtl⟩ := hnd
    rcases List.mem_cons.mp hmem with heq | htl
    · have hk : k = m := ((Prod.mk.injEq .. |>.mp heq).1).symm
      subst hk
      have hcong : tl.filter (fun p => k + 1 ≤ p.1) = tl.filter (fun p => k ≤ p.1) := by
        apply List.filter_congr
        intro p hp
        have hne : p.1 ≠ k := by
          intro hc
          exact hknotin (hc ▸ List.mem_map_of_mem Prod.fst hp)
        simp only [decide_eq_decide]
        omega
      rw [List.filter_cons, List.filter_cons,
        if_neg (by simp),
        if_pos (by simp), hcong]
      simp only [List.length_cons]
    · have hih := ih hndtl htl
      have hkm : k ≠ m := by
        intro hc
        subst hc
        exact hknotin (List.mem_map_of_mem Prod.fst htl)
      by_cases hge : m + 1 ≤ k
      · have hge' : m ≤ k := by omega
        rw [List.filter_cons, List.filter_cons, if_pos (by simpa using hge),
          if_pos (by simpa using hge')]
        simp only [List.length_cons]
        omega
      · have hge' : ¬ m ≤ k := by omega
        rw [List.filter_cons, List.filter_cons, if_neg (by simpa using hge),
          if_neg (by simpa using hge')]
        omega

/-- Every transition preserves the session invariant. -/
theorem DStep_inv (data : List Nat) (csize cr : Nat) (s s' : DState)
    (h : DStep data csize s s') (hinv : DInv cr s) : DInv cr s' := by
  obtain ⟨hbound, hnd, hinf, hch, hcw⟩ := hinv
  obtain ⟨hnd1, hnd2, hdisj⟩ := List.nodup_append.mp hnd
  cases h with
  | claimBeyond b hb h2 =>
    have hlen : (s.pool.erase b).length = s.pool.length - 1 :=
      List.length_erase_of_mem hb
    have hpos : 0 < s.pool.length := List.length_pos_of_mem hb
    refine ⟨?_, hnd, ?_, ?_, ?_⟩
    · dsimp only [unconsumed] at hbound ⊢
      omega
    · intro p hp
      obtain ⟨ha, hb'⟩ := hinf p hp
      exact ⟨ha, by dsimp only; omega⟩
    · intro p hp
      have := hch p hp
      dsimp only
      omega
    · dsimp only
      omega
  | claimOk b hb h2 =>
    have hlen : (s.pool.erase b).length = s.pool.length - 1 :=
      List.length_erase_of_mem hb
    have hpos : 0 < s.pool.length := List.length_pos_of_mem hb
    have hknotin1 : s.chwid ∉ s.chunks.map Prod.fst := by
      intro hmem
      obtain ⟨p, hp, hpe⟩ := List.mem_map.mp hmem
      have := hch p hp
      omega
    have hknotin2 : s.chwid ∉ s.inflight.map Prod.fst := by
      intro hmem
      obtain ⟨p, hp, hpe⟩ := List.mem_map.mp hmem
      have := (hinf p hp).2
      omega
    refine ⟨?_, ?_, ?_, ?_, ?_⟩
    · dsimp only [unconsumed, List.length_cons] at hbound ⊢
      omega
    · dsimp only
      rw [List.map_cons, List.nodup_middle, List.nodup_cons]
      refine ⟨?_, hnd⟩
      intro hmem
      rcases List.mem_append.mp hmem with h' | h'
      · exact hknotin1 h'
      · exact hknotin2 h'
    · intro p hp
      dsimp only at hp ⊢
      rcases List.mem_cons.mp hp with rfl | h'
      · exact ⟨hcw, by omega⟩
      · obtain ⟨ha, hb'⟩ := hinf p h'
        exact ⟨ha, by omega⟩
    · intro p hp
      have := hch p hp
      dsimp only
      omega
    · dsimp only
      omega
  | storeOk i b hmem =>
    have hlen1 : 0 < s.inflight.length := List.length_pos_of_mem hmem
    have hlen2 : (s.inflight.erase (i, b)).length = s.inflight.length - 1 :=
      List.length_erase_of_mem hmem
    have hchrid_i : s.chrid ≤ i := (hinf (i, b) hmem).1
    have hids : i ∈ s.inflight.map Prod.fst := List.mem_map_of_mem Prod.fst hmem
    have herase_ids : i ∉ (s.inflight.erase (i, b)).map Prod.fst := by
      intro hmem'
      obtain ⟨⟨i', c'⟩, hc', he⟩ := List.mem_map.mp hmem'
      dsimp only at he
      have hin : (i, c') ∈ s.inflight := by
        rw [← he]
        exact List.mem_of_mem_erase hc'
      have hbc : c' = b := fst_inj_of_nodup s.inflight hnd2 i c' b hin hmem
      rw [he, hbc] at hc'
      exact (hnd2.of_map).not_mem_erase hc'
    refine ⟨?_, ?_, ?_, ?_, hcw⟩
    · dsimp only [unconsumed]
      rw [List.filter_cons]
      have hpass : decide (s.chrid ≤ i) = true := decide_eq_true hchrid_i
      rw [hpass]
      dsimp only [unconsumed] at hbound
      simp only [if_true, List.length_cons]
      omega
    · dsimp only
      rw [List.map_cons, List.cons_append, List.nodup_cons]
      constructor
      · intro hmem'
        rcases List.mem_append.mp hmem' with h' | h'
        · exact hdisj h' hids
        · exact herase_ids h'
      · exact hnd.sublist
          (((List.erase_sublist (i, b) s.inflight).map Prod.fst).append_left _)
    · intro p hp
      exact hinf p (List.mem_of_mem_erase hp)
    · intro p hp
      dsimp only at hp
      rcases List.mem_cons.mp hp with rfl | h'
      · exact (hinf (i, b) hmem).2
      · exact hch p h'
  | storeFail i b msg hmem =>
    have hlen2 : (s.inflight.erase (i, b)).length = s.inflight.length - 1 :=
      List.length_erase_of_mem hmem
    refine ⟨?_, ?_, ?_, hch, hcw⟩
    · dsimp only [unconsumed] at hbound ⊢
      omega
    · exact hnd.sublist
        (((List.erase_sublist (i, b) s.inflight).map Prod.fst).append_left _)
    · intro p hp
      exact hinf p (List.mem_of_mem_erase hp)
  | readCall s' c r hre =>
    cases herr : s.err with
    | some e =>
      simp only [ReadD, herr] at hre
      simp only [Option.some_inj, Prod.mk.injEq] at hre
      obtain ⟨-, rfl⟩ := hre
      exact ⟨hbound, hnd, hinf, hch, hcw⟩
    | none =>
      simp only [ReadD, herr] at hre
      cases hlk : lookupChunk s.chunks s.chrid with
      | none =>
        rw [hlk] at hre
        simp at hre
      | some b =>
        rw [hlk] at hre
        dsimp only at hre
        have hentry : (s.chrid, b) ∈ s.chunks := lookupChunk_mem _ _ _ hlk
        split_ifs at hre with hrem hc hend hclosed
        all_goals
          first
          | exact Option.noConfusion hre
          | (simp only [Option.some_inj, Prod.mk.injEq] at hre
             obtain ⟨-, rfl⟩ := hre
             first
             | exact ⟨hbound, hnd, hinf, hch, hcw⟩
             | (have hcount := filter_chrid_succ s.chunks s.chrid b hnd1 hentry
                refine ⟨?_, hnd, ?_, hch, ?_⟩
                · dsimp only [unconsumed, List.length_cons] at hbound ⊢
                  omega
                · intro p hp
                  obtain ⟨ha, hb'⟩ := hinf p hp
                  have hne : p.1 ≠ s.chrid := by
                    intro hc'
                    exact hdisj (hc' ▸ List.mem_map_of_mem Prod.fst hentry)
                      (List.mem_map_of_mem Prod.fst hp)
                  exact ⟨by dsimp only; omega, hb'⟩
                · have hcwx := hch _ hentry
                  dsimp only
                  omega))

/-- Every reachable session state satisfies the invariant. -/
theorem DReach_inv (data : List Nat) (csize cr : Nat) (s : DState)
    (h : DReach data csize cr s) : DInv cr s := by
  induction h with
  | init =>
    refine ⟨?_, by simp, by simp, by simp, le_refl 0⟩
    simp [unconsumed]
  | step hs hstep ih => exact DStep_inv _ _ _ _ _ hstep ih

/-! ## Theorems settling the reader-session claims -/

/-- C6 counterexample: with the 2-byte object [7, 9], chunk size 1 and
    concurrency 1, after the consumer drains chunk 0 and advances, the
    reachable state still holds the map entry for chunk 0 although that
    chunk is fully consumed (`chrid = 1`) — `Read` recycles the drained
    buffer into `chbuf` but never deletes the map entry — so the map
    does not hold entries only for complete-but-not-yet-consumed
    chunks.  Moreover the stale entry's buffer (id 0) has been reset for
    reuse: it holds `[]`, no longer chunk 0's bytes `[7]`. -/
theorem chunkMap_retains_consumed_entry :
    DReach [7, 9] 1 1 ⟨1, 1, 1, [0], [], [(0, 0)], [(0, [])], none, false⟩ ∧
    (0, 0) ∈ (⟨1, 1, 1, [0], [], [(0, 0)], [(0, [])], none, false⟩ : DState).chunks ∧
    0 < (⟨1, 1, 1, [0], [], [(0, 0)], [(0, [])], none, false⟩ : DState).chrid ∧
    lookupChunk (⟨1, 1, 1, [0], [], [(0, 0)], [(0, [])], none, false⟩ : DState).bufs 0
      = some [] ∧
    ([] : List Nat) ≠ chunkSlice [7, 9] 1 0 := by
  refine ⟨?_, by simp, by decide, by decide, by decide⟩
  have r0 : DReach [7, 9] 1 1 ⟨0, 0, 0, [0], [], [], [(0, [])], none, false⟩ :=
    DReach.init
  have r1 : DReach [7, 9] 1 1 ⟨1, 0, 0, [], [(0, 0)], [], [(0, [])], none, false⟩ :=
    r0.step (DStep.claimOk ⟨0, 0, 0, [0], [], [], [(0, [])], none, false⟩ 0
      (by decide) (by decide))
  have r2 : DReach [7, 9] 1 1 ⟨1, 0, 0, [], [], [(0, 0)], [(0, [7])], none, false⟩ :=
    r1.step (DStep.storeOk ⟨1, 0, 0, [], [(0, 0)], [], [(0, [])], none, false⟩ 0 0
      (by decide))
  have r3 : DReach [7, 9] 1 1 ⟨1, 0, 1, [], [], [(0, 0)], [(0, [])], none, false⟩ :=
    r2.step (DStep.readCall ⟨1, 0, 0, [], [], [(0, 0)], [(0, [7])], none, false⟩
      ⟨1, 0, 1, [], [], [(0, 0)], [(0, [])], none, false⟩ 1 (1, false, none)
      (by decide))
  exact r3.step (DStep.readCall ⟨1, 0, 1, [], [], [(0, 0)], [(0, [])], none, false⟩
    ⟨1, 1, 1, [0], [], [(0, 0)], [(0, [])], none, false⟩ 1 (0, false, none)
    (by decide))

/-- C6 amended: in every reachable session state, the number of chunks
    in-flight or completed-but-unconsumed never exceeds the concurrency
    `cr` — indeed even adding the buffers still queued in the pool stays
    within `cr` — but the completed-chunk map retains entries for chunks
    already consumed: `Read` advances the consume index and recycles
    (resets) the drained buffer the stale entry still points at, which a
    worker may refill with a later chunk's bytes, so the map does not
    hold entries only for chunks that are complete but not yet
    consumed (see the counterexample). -/
theorem chunkMachine_bounded (data : List Nat) (csize cr : Nat) (s : DState)
    (h : DReach data csize cr s) :
    s.inflight.length + unconsumed s ≤ cr ∧
    s.pool.length + s.inflight.length + unconsumed s ≤ cr := by
  obtain ⟨hb, -, -, -, -⟩ := DReach_inv data csize cr s h
  exact ⟨by omega, hb⟩

/-- Witness for C6 amended: the state reached after one claim with
    concurrency 1 (one chunk in flight, the pool empty, nothing
    stored). -/
theorem chunkMachine_bounded_witness :
    (⟨1, 0, 0, [], [(0, 0)], [], [(0, [])], none, false⟩ : DState).inflight.length
        + unconsumed ⟨1, 0, 0, [], [(0, 0)], [], [(0, [])], none, false⟩ ≤ 1 ∧
    (⟨1, 0, 0, [], [(0, 0)], [], [(0, [])], none, false⟩ : DState).pool.length
        + (⟨1, 0, 0, [], [(0, 0)], [], [(0, [])], none, false⟩ : DState).inflight.length
        + unconsumed ⟨1, 0, 0, [], [(0, 0)], [], [(0, [])], none, false⟩ ≤ 1 :=
  chunkMachine_bounded [7, 9] 1 1 ⟨1, 0, 0, [], [(0, 0)], [], [(0, [])], none, false⟩
    (DReach.step DReach.init
      (DStep.claimOk ⟨0, 0, 0, [0], [], [], [(0, [])], none, false⟩ 0
        (by decide) (by decide)))

/-- C7: the session error is a write-once latch.  Folding `setErr` over
    any non-empty sequence of worker errors keeps exactly the first one;
    no transition of the session (claim, store, failure, or Read) ever
    changes a latched error; and whenever the error is latched, every
    Read call returns immediately with 0 bytes, no end-of-data, and that
    first error, leaving the state unchanged. -/
theorem setErr_latch_sticky :
    (∀ e es, latchAll (e :: es) = some e) ∧
    (∀ (data : List Nat) (csize : Nat) (s s' : DState) (e : String),
      DStep data csize s s' → s.err = some e → s'.err = some e) ∧
    (∀ (data : List Nat) (csize c : Nat) (s : DState) (e : String),
      s.err = some e → ReadD data csize c s = some ((0, false, some e), s)) := by
  have hfold : ∀ (es : List String) (cur : String),
      List.foldl setErr (some cur) es = some cur := by
    intro es
    induction es with
    | nil => intro cur; rfl
    | cons x xs ih => intro cur; exact ih cur
  refine ⟨?_, ?_, ?_⟩
  · intro e es
    show List.foldl setErr (setErr none e) es = some e
    exact hfold es e
  · intro data csize s s' e hstep herr
    cases hstep with
    | claimBeyond b hb h2 => exact herr
    | claimOk b hb h2 => exact herr
    | storeOk i b h => exact herr
    | storeFail i b msg h =>
      show setErr s.err msg = some e
      rw [herr]
      rfl
    | readCall s' c r hre =>
      simp only [ReadD, herr] at hre
      simp only [Option.some_inj, Prod.mk.injEq] at hre
      obtain ⟨-, rfl⟩ := hre
      exact herr
  · intro data csize c s e herr
    simp only [ReadD, herr]

end Blazer
